import Mathlib

/-
  Verification of the in-memory directed-graph library (student_code.py):
  a base digraph store (`SortableDigraph`), depth-first / breadth-first
  traversals (`TraversableDigraph`), and a DAG specialization with a
  cycle-rejecting `add_edge` and a topological sort.

  The embedding is shallow: Python dicts become insertion-ordered
  association lists, generators become functions returning the list of
  yielded values, and the DAG's `add_edge` returns the final state
  together with an optional error (the offending `(start, end)` pair),
  mirroring the raised `ValueError`.
-/

set_option maxHeartbeats 1000000

namespace StudentCode

/-- Association-list lookup, mirroring Python `dict.get(k)` / `d[k]`.
The first matching key wins. -/
def dictGet {κ α : Type} [DecidableEq κ] : List (κ × α) → κ → Option α
  | [], _ => none
  | (k, v) :: rest, key => if k = key then some v else dictGet rest key

/-- Association-list lookup with default, mirroring Python `dict.get(k, d)`. -/
def dictGetD {κ α : Type} [DecidableEq κ] (l : List (κ × α)) (key : κ) (d : α) : α :=
  (dictGet l key).getD d

/-- Association-list store, mirroring Python `d[k] = v`: overwrite in place when
the key is present (insertion order preserved), otherwise append at the end. -/
def dictSet {κ α : Type} [DecidableEq κ] : List (κ × α) → κ → α → List (κ × α)
  | [], key, v => [(key, v)]
  | (k, w) :: rest, key, v =>
      if k = key then (k, v) :: rest else (k, w) :: dictSet rest key v

/-- State of a `SortableDigraph`: the adjacency mapping `self.graph`
(insertion-ordered keys, each with its ordered successor list),
`self.node_values` and `self.edge_weights`. -/
structure SortableDigraph (V U W : Type) where
  graph : List (V × List V)
  node_values : List (V × U)
  edge_weights : List ((V × V) × W)

variable {V U W : Type} [DecidableEq V]

/-- `__contains__`: key membership in `self.graph`. -/
abbrev contains (g : SortableDigraph V U W) (node : V) : Prop :=
  node ∈ g.graph.map Prod.fst

/-- `add_node`: insert `node` with empty successor list when absent; record the
value when one is supplied. -/
def add_node (g : SortableDigraph V U W) (node : V) (value : Option U) :
    SortableDigraph V U W :=
  let g1 := if contains g node then g else { g with graph := g.graph ++ [(node, [])] }
  match value with
  | none => g1
  | some v => { g1 with node_values := dictSet g1.node_values node v }

/-- `SortableDigraph.add_edge`: ensure both endpoints exist, append `end` to
`start`'s successors when not already present, and record the weight when
supplied. -/
def add_edge (g : SortableDigraph V U W) (start end_ : V) (edge_weight : Option W) :
    SortableDigraph V U W :=
  let g1 := if contains g start then g else add_node g start none
  let g2 := if contains g1 end_ then g1 else add_node g1 end_ none
  let g3 :=
    if end_ ∈ dictGetD g2.graph start [] then g2
    else { g2 with graph := dictSet g2.graph start (dictGetD g2.graph start [] ++ [end_]) }
  match edge_weight with
  | none => g3
  | some w => { g3 with edge_weights := dictSet g3.edge_weights (start, end_) w }

/-- `__getitem__`: successor list of `node`, `[]` when absent
(Python `self.graph.get(node, [])`). -/
def getitem (g : SortableDigraph V U W) (node : V) : List V :=
  dictGetD g.graph node []

/-- `get_edge_weight`: weight of the ordered pair, absent when unset. -/
def get_edge_weight (g : SortableDigraph V U W) (start end_ : V) : Option W :=
  dictGet g.edge_weights (start, end_)

/-- `successors`: same lookup as `__getitem__`. -/
def successors (g : SortableDigraph V U W) (node : V) : List V :=
  dictGetD g.graph node []

/-- `predecessors`: all keys whose successor list contains `node`,
in adjacency-mapping iteration order. -/
def predecessors (g : SortableDigraph V U W) (node : V) : List V :=
  (g.graph.filter (fun p => node ∈ p.2)).map Prod.fst

/-! ### Traversals (`TraversableDigraph`)

`TraversableDigraph` adds no state over `SortableDigraph`, so `dfs` and `bfs`
are defined directly on the same state type.  Each generator is modelled as a
function returning the list of yielded nodes; the auxiliary worker also
returns the final `visited` set (as a list) so that invariants about it can be
stated.  Recursion is by fuel; `traverseFuel` is an upper bound on the number
of loop iterations, proved sufficient below. -/

/-- All entries of all successor lists (every node a traversal can ever push
besides its start). -/
def adjTargets (g : SortableDigraph V U W) : List V :=
  (g.graph.map Prod.snd).flatten

/-- The finite list of nodes a traversal from `start` can ever visit. -/
def touchable (g : SortableDigraph V U W) (start : V) : List V :=
  (start :: adjTargets g).dedup

/-- Termination potential of a traversal state: pending stack/queue entries
plus, for every not-yet-visited touchable node, one visit step and one push
per successor. -/
def potential (g : SortableDigraph V U W) (start : V) (visited stack : List V) : Nat :=
  stack.length +
    (((touchable g start).filter (fun v => ¬ v ∈ visited)).map
      (fun v => (getitem g v).length + 1)).sum

/-- Fuel sufficient for a full traversal from `start`. -/
def traverseFuel (g : SortableDigraph V U W) (start : V) : Nat :=
  potential g start [] [start]

/-- Worker for `dfs`: explicit stack (head = top), late visited check on pop,
unvisited successors pushed so that the first successor is explored first.
Returns (yielded nodes, final visited). -/
def dfsAux (g : SortableDigraph V U W) (start : V) :
    Nat → List V → List V → List V × List V
  | 0, visited, _ => ([], visited)
  | _ + 1, visited, [] => ([], visited)
  | fuel + 1, visited, node :: rest =>
    if node ∈ visited then dfsAux g start fuel visited rest
    else
      let visited' := node :: visited
      let p := dfsAux g start fuel visited'
        ((getitem g node).filter (fun n => ¬ n ∈ visited') ++ rest)
      (if node = start then p.1 else node :: p.1, p.2)

/-- `dfs`: list of nodes yielded by the depth-first generator. -/
def dfs (g : SortableDigraph V U W) (start : V) : List V :=
  (dfsAux g start (traverseFuel g start) [] [start]).1

/-- Worker for `bfs`: FIFO queue (head = front), late visited check on pop,
unvisited successors enqueued at the back in original order.
Returns (yielded nodes, final visited). -/
def bfsAux (g : SortableDigraph V U W) (start : V) :
    Nat → List V → List V → List V × List V
  | 0, visited, _ => ([], visited)
  | _ + 1, visited, [] => ([], visited)
  | fuel + 1, visited, node :: rest =>
    if node ∈ visited then bfsAux g start fuel visited rest
    else
      let visited' := node :: visited
      let p := bfsAux g start fuel visited'
        (rest ++ (getitem g node).filter (fun n => ¬ n ∈ visited'))
      (if node = start then p.1 else node :: p.1, p.2)

/-- `bfs`: list of nodes yielded by the breadth-first generator. -/
def bfs (g : SortableDigraph V U W) (start : V) : List V :=
  (bfsAux g start (traverseFuel g start) [] [start]).1

/-! ### DAG -/

/-- `DAG._has_path`: `False` when `start` is absent, otherwise whether the
BFS generator from `start` ever yields `target`. -/
def has_path (g : SortableDigraph V U W) (start target : V) : Bool :=
  if contains g start then
    (if target ∈ bfs g start then true else false)
  else false

/-- `DAG.add_edge`: ensure both endpoints exist as nodes, then reject (raise)
when a path from `end` back to `start` already exists, else delegate to the
base `add_edge`.  The raised `ValueError` is modelled as `some (start, end)`
alongside the state as mutated so far. -/
def dag_add_edge (g : SortableDigraph V U W) (start end_ : V) (edge_weight : Option W) :
    SortableDigraph V U W × Option (V × V) :=
  let g1 := if contains g start then g else add_node g start none
  let g2 := if contains g1 end_ then g1 else add_node g1 end_ none
  if has_path g2 end_ start then (g2, some (start, end_))
  else (add_edge g2 start end_ edge_weight, none)

/-- In-place addition on an association list with integer values, mirroring
Python `d[k] += delta`.  (For graphs built through the API every decremented
key is present, matching the Python code, which would raise on an absent
key.) -/
def dictAdd {κ : Type} [DecidableEq κ] : List (κ × Int) → κ → Int → List (κ × Int)
  | [], _, _ => []
  | (k, v) :: rest, key, d =>
      if k = key then (k, v + d) :: rest else (k, v) :: dictAdd rest key d

/-- Loop of `top_sort`: dequeue a node, append it to the result, decrement each
successor's in-degree and enqueue it the moment it reaches zero. -/
def topSortLoop (g : SortableDigraph V U W) :
    Nat → List (V × Int) → List V → List V → List V
  | 0, _, _, result => result
  | fuel + 1, indeg, queue, result =>
    match queue with
    | [] => result
    | node :: rest =>
      let step := (getitem g node).foldl
        (fun (acc : List (V × Int) × List V) neighbor =>
          let indeg2 := dictAdd acc.1 neighbor (-1)
          (indeg2, if dictGetD indeg2 neighbor 0 = 0 then acc.2 ++ [neighbor] else acc.2))
        (indeg, rest)
      topSortLoop g fuel step.1 step.2 (result ++ [node])

/-- `DAG.top_sort`: Kahn's algorithm — in-degrees from the adjacency mapping,
queue seeded with the zero-in-degree nodes in insertion order. -/
def top_sort (g : SortableDigraph V U W) : List V :=
  let nodes := g.graph.map Prod.fst
  let indeg0 : List (V × Int) := nodes.map (fun n => (n, 0))
  let indeg := (adjTargets g).foldl (fun acc n => dictAdd acc n 1) indeg0
  let queue0 := nodes.filter (fun n => dictGetD indeg n 0 = 0)
  topSortLoop g (nodes.length + (adjTargets g).length + 1) indeg queue0 []

/-! ### Reachability -/

/-- One edge step: `b` is a recorded successor of `a`. -/
def Step (g : SortableDigraph V U W) (a b : V) : Prop :=
  b ∈ getitem g a

/-- `Reach g u v`: a (possibly empty) chain of edges from `u` to `v`. -/
def Reach (g : SortableDigraph V U W) (u v : V) : Prop :=
  Relation.ReflTransGen (Step g) u v

/-- `reachIn g u k v`: an edge chain of length exactly `k` from `u` to `v`. -/
def reachIn (g : SortableDigraph V U W) (u : V) : Nat → V → Prop
  | 0, v => u = v
  | k + 1, v => ∃ w, w ∈ getitem g u ∧ reachIn g w k v

/-- "The shortest-path distance from `s` to `v` is at most `k`":
some edge chain of length at most `k` joins them. -/
def distLe (g : SortableDigraph V U W) (s v : V) (k : Nat) : Prop :=
  ∃ j, j ≤ k ∧ reachIn g s j v

/-- "`n` is the shortest-path distance from `s` to `v`". -/
def distIs (g : SortableDigraph V U W) (s v : V) (n : Nat) : Prop :=
  reachIn g s n v ∧ ∀ j, reachIn g s j v → n ≤ j

/-- The empty graph. -/
def emptyGraph (V U W : Type) : SortableDigraph V U W :=
  ⟨[], [], []⟩

/-- Keep only the first occurrence of each element (proof infrastructure for
the BFS ordering invariant). -/
def firstOcc : List V → List V
  | [] => []
  | a :: l => a :: firstOcc (l.filter (fun x => ¬ x = a))
termination_by l => l.length
decreasing_by
  simp only [List.length_cons]
  exact Nat.lt_succ_of_le (List.length_filter_le _ _)

/-- The effective queue of a BFS state: the first pending occurrence of every
not-yet-visited node, in queue order.  Pops only ever consume its head, and
every yield is its head at that moment. -/
def effQueue (vis q : List V) : List V :=
  firstOcc (q.filter (fun x => ¬ x ∈ vis))

/-- Invariant tying a BFS state `(vis, q)` to the shortest-path distance
assignment `d`: queue entries are reachable, the effective queue is sorted by
`d` and spans at most two consecutive layers, successors of visited nodes are
visited or pending, and every unvisited reachable node is at distance at least
that of some effective-queue entry. -/
def bfsInv (g : SortableDigraph V U W) (s : V) (d : V → Nat) (vis q : List V) : Prop :=
  (∀ x ∈ q, Reach g s x) ∧
  (∀ x ∈ vis, Reach g s x) ∧
  List.Pairwise (fun a b => d a ≤ d b) (effQueue vis q) ∧
  (∀ a ∈ effQueue vis q, ∀ b ∈ effQueue vis q, d b ≤ d a + 1) ∧
  (∀ u ∈ vis, ∀ w ∈ getitem g u, w ∈ vis ∨ w ∈ q) ∧
  (∀ u, Reach g s u → u ∉ vis → ∃ e ∈ effQueue vis q, d e ≤ d u)

/-! ### Association-list lemmas -/

theorem dictGet_of_not_mem {κ α : Type} [DecidableEq κ] {l : List (κ × α)} {key : κ}
    (h : key ∉ l.map Prod.fst) : dictGet l key = none := by
  induction l with
  | nil => rfl
  | cons p rest ih =>
    obtain ⟨k, v⟩ := p
    simp only [List.map_cons, List.mem_cons] at h
    push_neg at h
    simp [dictGet, Ne.symm h.1, ih h.2]

theorem dictGetD_of_not_mem {κ α : Type} [DecidableEq κ] {l : List (κ × α)} {key : κ}
    (d : α) (h : key ∉ l.map Prod.fst) : dictGetD l key d = d := by
  simp [dictGetD, dictGet_of_not_mem h]

theorem dictGet_dictSet_self {κ α : Type} [DecidableEq κ] (l : List (κ × α)) (key : κ)
    (v : α) : dictGet (dictSet l key v) key = some v := by
  induction l with
  | nil => simp [dictSet, dictGet]
  | cons p rest ih =>
    obtain ⟨k, w⟩ := p
    by_cases h : k = key
    · simp [dictSet, dictGet, h]
    · simp [dictSet, dictGet, h, ih]

theorem dictGet_dictSet_ne {κ α : Type} [DecidableEq κ] (l : List (κ × α)) {key key' : κ}
    (v : α) (h : key' ≠ key) : dictGet (dictSet l key v) key' = dictGet l key' := by
  induction l with
  | nil => simp [dictSet, dictGet, Ne.symm h]
  | cons p rest ih =>
    obtain ⟨k, w⟩ := p
    by_cases hk : k = key
    · subst hk
      simp [dictSet, dictGet, Ne.symm h]
    · simp only [dictSet, if_neg hk]
      by_cases hk' : k = key'
      · simp [dictGet, hk']
      · simp [dictGet, hk', ih]

theorem dictGet_append_left {κ α : Type} [DecidableEq κ] {l : List (κ × α)}
    (l' : List (κ × α)) {key : κ} (h : key ∈ l.map Prod.fst) :
    dictGet (l ++ l') key = dictGet l key := by
  induction l with
  | nil => simp at h
  | cons p rest ih =>
    obtain ⟨k, v⟩ := p
    by_cases hk : k = key
    · simp [dictGet, hk]
    · simp only [List.map_cons, List.mem_cons] at h
      rcases h with h | h

      · exact absurd h.symm hk
      · simp [dictGet, hk, ih h]

theorem dictGet_append_right {κ α : Type} [DecidableEq κ] {l : List (κ × α)}
    (l' : List (κ × α)) {key : κ} (h : key ∉ l.map Prod.fst) :
    dictGet (l ++ l') key = dictGet l' key := by
  induction l with
  | nil => simp
  | cons p rest ih =>
    obtain ⟨k, v⟩ := p
    simp only [List.map_cons, List.mem_cons] at h
    push_neg at h
    simp [dictGet, Ne.symm h.1, ih h.2]

theorem dictGet_mem_snd {κ α : Type} [DecidableEq κ] {l : List (κ × α)} {key : κ} {a : α}
    (h : dictGet l key = some a) : a ∈ l.map Prod.snd := by
  induction l with
  | nil => simp [dictGet] at h
  | cons p rest ih =>
    obtain ⟨k, v⟩ := p
    by_cases hk : k = key
    · simp only [dictGet, if_pos hk, Option.some.injEq] at h
      simp [h]
    · simp only [dictGet, if_neg hk] at h
      simp [ih h]

theorem mem_fst_dictSet {κ α : Type} [DecidableEq κ] (l : List (κ × α)) (key key' : κ)
    (v : α) : key' ∈ (dictSet l key v).map Prod.fst ↔ key' = key ∨ key' ∈ l.map Prod.fst := by
  induction l with
  | nil =>
    simp [dictSet]
  | cons p rest ih =>
    obtain ⟨k, w⟩ := p
    by_cases hk : k = key
    · subst hk
      simp only [dictSet, eq_self_iff_true, if_true, List.map_cons, List.mem_cons]
      tauto
    · simp only [dictSet, if_neg hk, List.map_cons, List.mem_cons, ih]
      tauto

/-! ### Store lemmas -/

theorem graph_add_node_of_contains {g : SortableDigraph V U W} {n : V} {val : Option U}
    (h : contains g n) : (add_node g n val).graph = g.graph := by
  cases val <;> simp [add_node, if_pos h]

theorem add_node_none_of_contains {g : SortableDigraph V U W} {n : V}
    (h : contains g n) : add_node g n none = g := by
  simp [add_node, if_pos h]

theorem graph_add_node_of_not_contains {g : SortableDigraph V U W} {n : V} {val : Option U}
    (h : ¬ contains g n) : (add_node g n val).graph = g.graph ++ [(n, [])] := by
  cases val <;> simp [add_node, if_neg h]

theorem contains_add_node {g : SortableDigraph V U W} {n v : V} {val : Option U} :
    contains (add_node g n val) v ↔ v = n ∨ contains g v := by
  by_cases h : contains g n
  · rw [contains, graph_add_node_of_contains h]
    constructor
    · exact Or.inr
    · rintro (rfl | hv)
      · exact h
      · exact hv
  · rw [contains, graph_add_node_of_not_contains h]
    rw [List.map_append, List.mem_append]
    simp only [List.map_cons, List.map_nil, List.mem_singleton]
    tauto

theorem getitem_add_node (g : SortableDigraph V U W) (n : V) (val : Option U) (v : V) :
    getitem (add_node g n val) v = getitem g v := by
  by_cases h : contains g n
  · simp [getitem, dictGetD, graph_add_node_of_contains h]
  · rw [getitem, getitem, dictGetD, dictGetD, graph_add_node_of_not_contains h]
    by_cases hv : v ∈ g.graph.map Prod.fst
    · rw [dictGet_append_left _ hv]
    · rw [dictGet_append_right _ hv, dictGet_of_not_mem hv]
      rcases eq_or_ne n v with rfl | hnv
      · simp [dictGet]
      · simp [dictGet, hnv]

theorem node_values_add_node_none (g : SortableDigraph V U W) (n : V) :
    (add_node g n none).node_values = g.node_values := by
  unfold add_node
  by_cases h : contains g n <;> simp [h]

theorem edge_weights_add_node (g : SortableDigraph V U W) (n : V) (val : Option U) :
    (add_node g n val).edge_weights = g.edge_weights := by
  unfold add_node
  by_cases h : contains g n <;> cases val <;> simp [h]

/-- Normal form of `add_edge`: the endpoint-existence guards compose with
`add_node`'s own absence check, so both endpoints are simply `add_node`ed. -/
theorem add_edge_eq (g : SortableDigraph V U W) (a b : V) (w : Option W) :
    add_edge g a b w =
      (let g2 : SortableDigraph V U W := add_node (add_node g a none) b none
       let g3 : SortableDigraph V U W :=
         if b ∈ getitem g a then g2
         else { g2 with graph := dictSet g2.graph a (getitem g a ++ [b]) }
       match w with
       | none => g3
       | some wv => { g3 with edge_weights := dictSet g3.edge_weights (a, b) wv }) := by
  have h1 : (if contains g a then g else add_node g a none) = add_node g a none := by
    by_cases h : contains g a
    · rw [if_pos h, add_node_none_of_contains h]
    · rw [if_neg h]
  have h2 : (if contains (add_node g a none) b then add_node g a none
      else add_node (add_node g a none) b none) = add_node (add_node g a none) b none := by
    by_cases h : contains (add_node g a none) b
    · rw [if_pos h, add_node_none_of_contains h]
    · rw [if_neg h]
  have h3 : dictGetD (add_node (add_node g a none) b none :
      SortableDigraph V U W).graph a [] = getitem g a := by
    show getitem (add_node (add_node g a none) b none) a = getitem g a
    rw [getitem_add_node, getitem_add_node]
  show (let g1 := if contains g a then g else add_node g a none
        let g2 := if contains g1 b then g1 else add_node g1 b none
        let g3 :=
          if b ∈ dictGetD g2.graph a [] then g2
          else { g2 with graph := dictSet g2.graph a (dictGetD g2.graph a [] ++ [b]) }
        match w with
        | none => g3
        | some wv => { g3 with edge_weights := dictSet g3.edge_weights (a, b) wv }) = _
  simp only [h1, h2, h3]

theorem graph_add_edge (g : SortableDigraph V U W) (a b : V) (w : Option W) :
    (add_edge g a b w).graph =
      if b ∈ getitem g a then
        (add_node (add_node g a none) b none : SortableDigraph V U W).graph
      else
        dictSet (add_node (add_node g a none) b none :
          SortableDigraph V U W).graph a (getitem g a ++ [b]) := by
  rw [add_edge_eq]
  by_cases hmem : b ∈ getitem g a <;> cases w <;> simp [hmem]

theorem getitem_add_edge (g : SortableDigraph V U W) (a b : V) (w : Option W) (x : V) :
    getitem (add_edge g a b w) x =
      if x = a then (if b ∈ getitem g a then getitem g a else getitem g a ++ [b])
      else getitem g x := by
  have hga : ∀ y, getitem (add_node (add_node g a none) b none) y = getitem g y := by
    intro y
    rw [getitem_add_node, getitem_add_node]
  rw [show getitem (add_edge g a b w) x = dictGetD (add_edge g a b w).graph x [] from rfl,
    graph_add_edge]
  by_cases hmem : b ∈ getitem g a
  · rw [if_pos hmem, if_pos hmem]
    rw [show dictGetD (add_node (add_node g a none) b none :
      SortableDigraph V U W).graph x [] = getitem (add_node (add_node g a none) b none) x
      from rfl, hga x]
    by_cases hx : x = a <;> simp [hx]
  · rw [if_neg hmem, if_neg hmem]
    by_cases hx : x = a
    · subst hx
      rw [if_pos rfl, dictGetD, dictGet_dictSet_self, Option.getD_some]
    · rw [if_neg hx, dictGetD, dictGet_dictSet_ne _ _ hx]
      rw [show (dictGet (add_node (add_node g a none) b none :
        SortableDigraph V U W).graph x).getD [] = getitem (add_node (add_node g a none) b none) x
        from rfl, hga x]

theorem contains_add_edge (g : SortableDigraph V U W) (a b : V) (w : Option W) (x : V) :
    contains (add_edge g a b w) x ↔ x = a ∨ x = b ∨ contains g x := by
  have h2 : ∀ y, contains (add_node (add_node g a none) b none) y ↔
      y = b ∨ y = a ∨ contains g y := by
    intro y
    rw [contains_add_node, contains_add_node]
  show x ∈ (add_edge g a b w).graph.map Prod.fst ↔ _
  rw [graph_add_edge]
  by_cases hmem : b ∈ getitem g a
  · rw [if_pos hmem]
    rw [show (x ∈ (add_node (add_node g a none) b none :
      SortableDigraph V U W).graph.map Prod.fst) ↔
      contains (add_node (add_node g a none) b none) x from Iff.rfl, h2 x]
    tauto
  · rw [if_neg hmem, mem_fst_dictSet]
    rw [show (x ∈ (add_node (add_node g a none) b none :
      SortableDigraph V U W).graph.map Prod.fst) ↔
      contains (add_node (add_node g a none) b none) x from Iff.rfl, h2 x]
    tauto

theorem edge_weights_add_edge_none (g : SortableDigraph V U W) (a b : V) :
    (add_edge g a b none).edge_weights = g.edge_weights := by
  rw [add_edge_eq]
  by_cases hmem : b ∈ getitem g a <;>
    simp [if_pos, if_neg, hmem, edge_weights_add_node]

theorem node_values_add_edge (g : SortableDigraph V U W) (a b : V) (w : Option W) :
    (add_edge g a b w).node_values = g.node_values := by
  rw [add_edge_eq]
  by_cases hmem : b ∈ getitem g a <;> cases w <;>
    simp [if_pos, if_neg, hmem, node_values_add_node_none]

/-! ### Reachability lemmas -/

theorem step_add_node {g : SortableDigraph V U W} {n : V} {val : Option U} {u v : V} :
    Step (add_node g n val) u v ↔ Step g u v := by
  simp [Step, getitem_add_node]

theorem reach_add_node {g : SortableDigraph V U W} {n : V} {val : Option U} {u v : V} :
    Reach (add_node g n val) u v ↔ Reach g u v := by
  constructor <;> intro h
  · exact Relation.ReflTransGen.mono (fun a b hab => step_add_node.mp hab) h
  · exact Relation.ReflTransGen.mono (fun a b hab => step_add_node.mpr hab) h

theorem reach_closed {g : SortableDigraph V U W} {A : List V}
    (hcl : ∀ u ∈ A, ∀ w, w ∈ getitem g u → w ∈ A) {u v : V} (hu : u ∈ A)
    (h : Reach g u v) : v ∈ A := by
  induction h with
  | refl => exact hu
  | tail hab hbc ih => exact hcl _ ih _ hbc

theorem reachIn_reach {g : SortableDigraph V U W} :
    ∀ {k : Nat} {u v : V}, reachIn g u k v → Reach g u v := by
  intro k
  induction k with
  | zero =>
    intro u v h
    rw [show reachIn g u 0 v = (u = v) from rfl] at h
    exact h ▸ Relation.ReflTransGen.refl
  | succ k ih =>
    intro u v h
    obtain ⟨w, hw, hrest⟩ := h
    exact Relation.ReflTransGen.head hw (ih hrest)

theorem reachIn_snoc {g : SortableDigraph V U W} :
    ∀ {k : Nat} {u b c : V}, reachIn g u k b → c ∈ getitem g b → reachIn g u (k + 1) c := by
  intro k
  induction k with
  | zero =>
    intro u b c h hc
    rw [show reachIn g u 0 b = (u = b) from rfl] at h
    subst h
    exact ⟨c, hc, rfl⟩
  | succ k ih =>
    intro u b c h hc
    obtain ⟨w, hw, hrest⟩ := h
    exact ⟨w, hw, ih hrest hc⟩

theorem reachIn_unsnoc {g : SortableDigraph V U W} :
    ∀ {k : Nat} {u v : V}, reachIn g u (k + 1) v →
      ∃ p, reachIn g u k p ∧ v ∈ getitem g p := by
  intro k
  induction k with
  | zero =>
    intro u v h
    obtain ⟨w, hw, hrest⟩ := h
    rw [show reachIn g w 0 v = (w = v) from rfl] at hrest
    subst hrest
    exact ⟨u, rfl, hw⟩
  | succ k ih =>
    intro u v h
    obtain ⟨w, hw, hrest⟩ := h
    obtain ⟨p, hp, hv⟩ := ih hrest
    exact ⟨p, ⟨w, hw, hp⟩, hv⟩

theorem reach_iff_reachIn {g : SortableDigraph V U W} {u v : V} :
    Reach g u v ↔ ∃ k, reachIn g u k v := by
  constructor
  · intro h
    induction h with
    | refl => exact ⟨0, rfl⟩
    | tail hab hbc ih =>
      obtain ⟨k, hk⟩ := ih
      exact ⟨k + 1, reachIn_snoc hk hbc⟩
  · rintro ⟨k, hk⟩
    exact reachIn_reach hk

theorem distIs_exists {g : SortableDigraph V U W} {s v : V} (h : Reach g s v) :
    ∃ n, distIs g s v n := by
  obtain ⟨k, hk⟩ := reach_iff_reachIn.mp h
  have hne : { j | reachIn g s j v }.Nonempty := ⟨k, hk⟩
  have hmem := Nat.sInf_mem hne
  exact ⟨sInf { j | reachIn g s j v }, hmem, fun j hj => Nat.sInf_le hj⟩

theorem distIs_unique {g : SortableDigraph V U W} {s v : V} {n m : Nat}
    (hn : distIs g s v n) (hm : distIs g s v m) : n = m :=
  le_antisymm (hn.2 m hm.1) (hm.2 n hn.1)

theorem distIs_self (g : SortableDigraph V U W) (s : V) : distIs g s s 0 :=
  ⟨rfl, fun j _ => Nat.zero_le j⟩

theorem distIs_succ_le {g : SortableDigraph V U W} {s u w : V} {n m : Nat}
    (hu : distIs g s u n) (hw : distIs g s w m) (hedge : w ∈ getitem g u) :
    m ≤ n + 1 :=
  hw.2 (n + 1) (reachIn_snoc hu.1 hedge)

/-! ### Touchable-set and potential lemmas -/

theorem mem_adjTargets_of_getitem {g : SortableDigraph V U W} {v x : V}
    (h : x ∈ getitem g v) : x ∈ adjTargets g := by
  rw [getitem, dictGetD] at h
  cases hv : dictGet g.graph v with
  | none =>
    rw [hv] at h
    simp at h
  | some l =>
    rw [hv] at h
    simp only [Option.getD_some] at h
    exact List.mem_flatten.mpr ⟨l, dictGet_mem_snd hv, h⟩

theorem mem_touchable_of_getitem {g : SortableDigraph V U W} {s v x : V}
    (h : x ∈ getitem g v) : x ∈ touchable g s := by
  rw [touchable, List.mem_dedup]
  exact List.mem_cons_of_mem _ (mem_adjTargets_of_getitem h)

theorem start_mem_touchable (g : SortableDigraph V U W) (s : V) : s ∈ touchable g s := by
  rw [touchable, List.mem_dedup]
  exact List.mem_cons_self _ _

theorem touchable_nodup (g : SortableDigraph V U W) (s : V) : (touchable g s).Nodup :=
  List.nodup_dedup _

theorem sum_filter_visit (f : V → Nat) :
    ∀ {S : List V}, S.Nodup → ∀ {v : V} {vis : List V}, v ∈ S → v ∉ vis →
      ((S.filter (fun x => ¬ x ∈ vis)).map f).sum =
        f v + ((S.filter (fun x => ¬ x ∈ v :: vis)).map f).sum := by
  intro S
  induction S with
  | nil =>
    intro _ v vis hv _
    simp at hv
  | cons a S ih =>
    intro hnd v vis hv hnvis
    have hand := List.nodup_cons.mp hnd
    rcases List.mem_cons.mp hv with rfl | hvS
    · have hfilter : S.filter (fun x => ¬ x ∈ vis) = S.filter (fun x => ¬ x ∈ v :: vis) := by
        apply List.filter_congr
        intro x hx
        have hxv : x ≠ v := fun h => hand.1 (h ▸ hx)
        simp [List.mem_cons, hxv]
      have h1 : (decide (¬ v ∈ vis)) = true := by simp [hnvis]
      have h2 : (decide (¬ v ∈ v :: vis)) = false := by simp [List.mem_cons]
      rw [List.filter_cons, List.filter_cons, h1, h2, if_pos rfl,
        if_neg Bool.false_ne_true, List.map_cons, List.sum_cons, hfilter]
    · have hav : a ≠ v := fun h => hand.1 (h ▸ hvS)
      rw [List.filter_cons, List.filter_cons]
      by_cases hca : a ∈ vis
      · have h1 : (decide (¬ a ∈ vis)) = false := by simp [hca]
        have h2 : (decide (¬ a ∈ v :: vis)) = false := by simp [List.mem_cons, hca]
        rw [h1, h2, if_neg Bool.false_ne_true, if_neg Bool.false_ne_true]
        exact ih hand.2 hvS hnvis
      · have h1 : (decide (¬ a ∈ vis)) = true := by simp [hca]
        have h2 : (decide (¬ a ∈ v :: vis)) = true := by simp [List.mem_cons, hca, hav]
        rw [h1, h2, if_pos rfl, if_pos rfl, List.map_cons, List.sum_cons,
          List.map_cons, List.sum_cons, ih hand.2 hvS hnvis]
        omega

theorem potential_pop (g : SortableDigraph V U W) (s : V) (vis rest : List V) (node : V) :
    potential g s vis (node :: rest) = potential g s vis rest + 1 := by
  simp only [potential, List.length_cons]
  omega

theorem potential_visit (g : SortableDigraph V U W) (s : V) {vis : List V} {node : V}
    (hS : node ∈ touchable g s) (hnv : node ∉ vis) {push : List V}
    (hlen : push.length ≤ (getitem g node).length) (rest : List V) :
    potential g s (node :: vis) (push ++ rest) + 2 ≤ potential g s vis (node :: rest) := by
  have hsum : (((touchable g s).filter (fun x => ¬ x ∈ vis)).map
      (fun v => (getitem g v).length + 1)).sum =
      (getitem g node).length + 1 +
        (((touchable g s).filter (fun x => ¬ x ∈ node :: vis)).map
          (fun v => (getitem g v).length + 1)).sum :=
    sum_filter_visit (fun v => (getitem g v).length + 1) (touchable_nodup g s) hS hnv
  simp only [potential, List.length_append, List.length_cons]
  rw [hsum]
  omega

theorem potential_visit_rev (g : SortableDigraph V U W) (s : V) {vis : List V} {node : V}
    (hS : node ∈ touchable g s) (hnv : node ∉ vis) {push : List V}
    (hlen : push.length ≤ (getitem g node).length) (rest : List V) :
    potential g s (node :: vis) (rest ++ push) + 2 ≤ potential g s vis (node :: rest) := by
  have h := potential_visit g s hS hnv hlen rest
  simp only [potential, List.length_append] at h ⊢
  omega

theorem filter_length_le_getitem (g : SortableDigraph V U W) (node : V) (vis : List V) :
    ((getitem g node).filter (fun n => ¬ n ∈ vis)).length ≤ (getitem g node).length :=
  List.length_filter_le _ _

/-! ### Depth-first traversal lemmas -/

theorem getitem_of_not_contains {g : SortableDigraph V U W} {v : V}
    (h : ¬ contains g v) : getitem g v = [] := by
  rw [getitem]
  exact dictGetD_of_not_mem _ h

theorem reach_of_empty_start {g : SortableDigraph V U W} {s v : V}
    (hs : getitem g s = []) (h : Reach g s v) : v = s := by
  rcases Relation.ReflTransGen.cases_head h with rfl | ⟨w, hw, _⟩
  · rfl
  · rw [Step, hs] at hw
    simp at hw

theorem dfsAux_zero (g : SortableDigraph V U W) (s : V) (vis st : List V) :
    dfsAux g s 0 vis st = ([], vis) := rfl

theorem dfsAux_nil (g : SortableDigraph V U W) (s : V) (fuel : Nat) (vis : List V) :
    dfsAux g s (fuel + 1) vis [] = ([], vis) := rfl

theorem dfsAux_cons_visited (g : SortableDigraph V U W) (s : V) (fuel : Nat)
    (vis rest : List V) {node : V} (h : node ∈ vis) :
    dfsAux g s (fuel + 1) vis (node :: rest) = dfsAux g s fuel vis rest := by
  simp [dfsAux, h]

theorem dfsAux_cons_new (g : SortableDigraph V U W) (s : V) (fuel : Nat)
    (vis rest : List V) {node : V} (h : ¬ node ∈ vis) :
    dfsAux g s (fuel + 1) vis (node :: rest) =
      ((if node = s then
          (dfsAux g s fuel (node :: vis)
            ((getitem g node).filter (fun n => ¬ n ∈ node :: vis) ++ rest)).1
        else node :: (dfsAux g s fuel (node :: vis)
            ((getitem g node).filter (fun n => ¬ n ∈ node :: vis) ++ rest)).1),
       (dfsAux g s fuel (node :: vis)
          ((getitem g node).filter (fun n => ¬ n ∈ node :: vis) ++ rest)).2) := by
  simp [dfsAux, h]

theorem dfsAux_visited_mono (g : SortableDigraph V U W) (s : V) :
    ∀ (fuel : Nat) (vis st : List V) (x : V), x ∈ vis → x ∈ (dfsAux g s fuel vis st).2 := by
  intro fuel
  induction fuel with
  | zero =>
    intro vis st x hx
    rw [dfsAux_zero]
    exact hx
  | succ fuel ih =>
    intro vis st x hx
    cases st with
    | nil =>
      rw [dfsAux_nil]
      exact hx
    | cons node rest =>
      by_cases h : node ∈ vis
      · rw [dfsAux_cons_visited g s fuel vis rest h]
        exact ih vis rest x hx
      · rw [dfsAux_cons_new g s fuel vis rest h]
        exact ih _ _ x (List.mem_cons_of_mem _ hx)

theorem dfsAux_out_spec (g : SortableDigraph V U W) (s : V) :
    ∀ (fuel : Nat) (vis st : List V),
      (dfsAux g s fuel vis st).1.Nodup ∧
      (∀ v ∈ (dfsAux g s fuel vis st).1,
        v ∉ vis ∧ v ≠ s ∧ v ∈ (dfsAux g s fuel vis st).2) ∧
      (∀ x ∈ (dfsAux g s fuel vis st).2, x ∈ vis ∨ x = s ∨ x ∈ (dfsAux g s fuel vis st).1) := by
  intro fuel
  induction fuel with
  | zero =>
    intro vis st
    rw [dfsAux_zero]
    refine ⟨List.nodup_nil, ?_, ?_⟩
    · intro v hv
      simp at hv
    · intro x hx
      exact Or.inl hx
  | succ fuel ih =>
    intro vis st
    cases st with
    | nil =>
      rw [dfsAux_nil]
      refine ⟨List.nodup_nil, ?_, ?_⟩
      · intro v hv
        simp at hv
      · intro x hx
        exact Or.inl hx
    | cons node rest =>
      by_cases h : node ∈ vis
      · rw [dfsAux_cons_visited g s fuel vis rest h]
        exact ih vis rest
      · rw [dfsAux_cons_new g s fuel vis rest h]
        obtain ⟨ihnd, ihout, ihfin⟩ :=
          ih (node :: vis) ((getitem g node).filter (fun n => ¬ n ∈ node :: vis) ++ rest)
        have hnodefin : node ∈ (dfsAux g s fuel (node :: vis)
            ((getitem g node).filter (fun n => ¬ n ∈ node :: vis) ++ rest)).2 :=
          dfsAux_visited_mono g s fuel _ _ node (List.mem_cons_self _ _)
        by_cases hns : node = s
        · simp only [if_pos hns]
          refine ⟨ihnd, ?_, ?_⟩
          · intro v hv
            obtain ⟨hv1, hv2, hv3⟩ := ihout v hv
            exact ⟨fun hc => hv1 (List.mem_cons_of_mem _ hc), hv2, hv3⟩
          · intro x hx
            rcases ihfin x hx with hx' | hx' | hx'
            · rcases List.mem_cons.mp hx' with rfl | hx''
              · exact Or.inr (Or.inl hns)
              · exact Or.inl hx''
            · exact Or.inr (Or.inl hx')
            · exact Or.inr (Or.inr hx')
        · simp only [if_neg hns]
          refine ⟨?_, ?_, ?_⟩
          · rw [List.nodup_cons]
            refine ⟨fun hc => ?_, ihnd⟩
            exact (ihout node hc).1 (List.mem_cons_self _ _)
          · intro v hv
            rcases List.mem_cons.mp hv with rfl | hv'
            · exact ⟨h, hns, hnodefin⟩
            · obtain ⟨hv1, hv2, hv3⟩ := ihout v hv'
              exact ⟨fun hc => hv1 (List.mem_cons_of_mem _ hc), hv2, hv3⟩
          · intro x hx
            rcases ihfin x hx with hx' | hx' | hx'
            · rcases List.mem_cons.mp hx' with rfl | hx''
              · exact Or.inr (Or.inr (List.mem_cons_self _ _))
              · exact Or.inl hx''
            · exact Or.inr (Or.inl hx')
            · exact Or.inr (Or.inr (List.mem_cons_of_mem _ hx'))

theorem dfsAux_sound (g : SortableDigraph V U W) (s : V) :
    ∀ (fuel : Nat) (vis st : List V),
      (∀ x ∈ st, Reach g s x) → (∀ x ∈ vis, Reach g s x) →
      ∀ v ∈ (dfsAux g s fuel vis st).2, Reach g s v := by
  intro fuel
  induction fuel with
  | zero =>
    intro vis st _ hvis v hv
    rw [dfsAux_zero] at hv
    exact hvis v hv
  | succ fuel ih =>
    intro vis st hst hvis
    cases st with
    | nil =>
      intro v hv
      rw [dfsAux_nil] at hv
      exact hvis v hv
    | cons node rest =>
      by_cases h : node ∈ vis
      · rw [dfsAux_cons_visited g s fuel vis rest h]
        exact ih vis rest (fun x hx => hst x (List.mem_cons_of_mem _ hx)) hvis
      · rw [dfsAux_cons_new g s fuel vis rest h]
        have hnode : Reach g s node := hst node (List.mem_cons_self _ _)
        refine ih _ _ ?_ ?_
        · intro x hx
          rcases List.mem_append.mp hx with hx' | hx'
          · have hx'' : x ∈ getitem g node := (List.mem_filter.mp hx').1
            exact Relation.ReflTransGen.tail hnode hx''
          · exact hst x (List.mem_cons_of_mem _ hx')
        · intro x hx
          rcases List.mem_cons.mp hx with rfl | hx'
          · exact hnode
          · exact hvis x hx'

theorem dfsAux_drain (g : SortableDigraph V U W) (s : V) :
    ∀ (fuel : Nat) (vis st : List V),
      (∀ x ∈ st, x ∈ touchable g s) →
      (∀ u ∈ vis, ∀ w ∈ getitem g u, w ∈ vis ∨ w ∈ st) →
      potential g s vis st ≤ fuel →
      (∀ x ∈ st, x ∈ (dfsAux g s fuel vis st).2) ∧
      (∀ u ∈ (dfsAux g s fuel vis st).2, ∀ w ∈ getitem g u,
        w ∈ (dfsAux g s fuel vis st).2) := by
  intro fuel
  induction fuel with
  | zero =>
    intro vis st _ hcl hfuel
    have hst : st = [] := by
      cases st with
      | nil => rfl
      | cons a l =>
        exfalso
        have : potential g s vis (a :: l) ≥ 1 := by
          rw [potential_pop]
          omega
        omega
    subst hst
    rw [dfsAux_zero]
    refine ⟨fun x hx => absurd hx (List.not_mem_nil x), fun u hu w hw => ?_⟩
    rcases hcl u hu w hw with h | h
    · exact h
    · exact absurd h (List.not_mem_nil w)
  | succ fuel ih =>
    intro vis st hsub hcl hfuel
    cases st with
    | nil =>
      rw [dfsAux_nil]
      refine ⟨fun x hx => absurd hx (List.not_mem_nil x), fun u hu w hw => ?_⟩
      rcases hcl u hu w hw with h | h
      · exact h
      · exact absurd h (List.not_mem_nil w)
    | cons node rest =>
      by_cases h : node ∈ vis
      · rw [dfsAux_cons_visited g s fuel vis rest h]
        have hfuel' : potential g s vis rest ≤ fuel := by
          rw [potential_pop] at hfuel
          omega
        have hcl' : ∀ u ∈ vis, ∀ w ∈ getitem g u, w ∈ vis ∨ w ∈ rest := by
          intro u hu w hw
          rcases hcl u hu w hw with h' | h'
          · exact Or.inl h'
          · rcases List.mem_cons.mp h' with rfl | h''
            · exact Or.inl h
            · exact Or.inr h''
        obtain ⟨hd1, hd2⟩ := ih vis rest
          (fun x hx => hsub x (List.mem_cons_of_mem _ hx)) hcl' hfuel'
        refine ⟨?_, hd2⟩
        intro x hx
        rcases List.mem_cons.mp hx with rfl | hx'
        · exact dfsAux_visited_mono g s fuel vis rest x h
        · exact hd1 x hx'
      · rw [dfsAux_cons_new g s fuel vis rest h]
        have hpush : ((getitem g node).filter (fun n => ¬ n ∈ node :: vis)).length ≤
            (getitem g node).length := List.length_filter_le _ _
        have hfuel' : potential g s (node :: vis)
            ((getitem g node).filter (fun n => ¬ n ∈ node :: vis) ++ rest) ≤ fuel := by
          have := potential_visit g s (hsub node (List.mem_cons_self _ _)) h hpush rest
          omega
        have hsub' : ∀ x ∈ (getitem g node).filter (fun n => ¬ n ∈ node :: vis) ++ rest,
            x ∈ touchable g s := by
          intro x hx
          rcases List.mem_append.mp hx with hx' | hx'
          · exact mem_touchable_of_getitem (List.mem_filter.mp hx').1
          · exact hsub x (List.mem_cons_of_mem _ hx')
        have hcl' : ∀ u ∈ node :: vis, ∀ w ∈ getitem g u,
            w ∈ node :: vis ∨ w ∈ (getitem g node).filter (fun n => ¬ n ∈ node :: vis) ++ rest := by
          intro u hu w hw
          rcases List.mem_cons.mp hu with hune | hu'
          · rw [hune] at hw
            by_cases hwv : w ∈ node :: vis
            · exact Or.inl hwv
            · refine Or.inr (List.mem_append.mpr (Or.inl ?_))
              rw [List.mem_filter]
              exact ⟨hw, by simpa using hwv⟩

          · rcases hcl u hu' w hw with h' | h'
            · exact Or.inl (List.mem_cons_of_mem _ h')
            · rcases List.mem_cons.mp h' with rfl | h''
              · exact Or.inl (List.mem_cons_self _ _)
              · exact Or.inr (List.mem_append.mpr (Or.inr h''))
        obtain ⟨hd1, hd2⟩ := ih (node :: vis)
          ((getitem g node).filter (fun n => ¬ n ∈ node :: vis) ++ rest) hsub' hcl' hfuel'
        refine ⟨?_, hd2⟩
        intro x hx
        rcases List.mem_cons.mp hx with rfl | hx'
        · exact dfsAux_visited_mono g s fuel _ _ x (List.mem_cons_self _ _)
        · exact hd1 x (List.mem_append.mpr (Or.inr hx'))

/-! ### Breadth-first traversal lemmas -/

theorem bfsAux_zero (g : SortableDigraph V U W) (s : V) (vis q : List V) :
    bfsAux g s 0 vis q = ([], vis) := rfl

theorem bfsAux_nil (g : SortableDigraph V U W) (s : V) (fuel : Nat) (vis : List V) :
    bfsAux g s (fuel + 1) vis [] = ([], vis) := rfl

theorem bfsAux_cons_visited (g : SortableDigraph V U W) (s : V) (fuel : Nat)
    (vis rest : List V) {node : V} (h : node ∈ vis) :
    bfsAux g s (fuel + 1) vis (node :: rest) = bfsAux g s fuel vis rest := by
  simp [bfsAux, h]

theorem bfsAux_cons_new (g : SortableDigraph V U W) (s : V) (fuel : Nat)
    (vis rest : List V) {node : V} (h : ¬ node ∈ vis) :
    bfsAux g s (fuel + 1) vis (node :: rest) =
      ((if node = s then
          (bfsAux g s fuel (node :: vis)
            (rest ++ (getitem g node).filter (fun n => ¬ n ∈ node :: vis))).1
        else node :: (bfsAux g s fuel (node :: vis)
            (rest ++ (getitem g node).filter (fun n => ¬ n ∈ node :: vis))).1),
       (bfsAux g s fuel (node :: vis)
          (rest ++ (getitem g node).filter (fun n => ¬ n ∈ node :: vis))).2) := by
  simp [bfsAux, h]

theorem bfsAux_visited_mono (g : SortableDigraph V U W) (s : V) :
    ∀ (fuel : Nat) (vis q : List V) (x : V), x ∈ vis → x ∈ (bfsAux g s fuel vis q).2 := by
  intro fuel
  induction fuel with
  | zero =>
    intro vis q x hx
    rw [bfsAux_zero]
    exact hx
  | succ fuel ih =>
    intro vis q x hx
    cases q with
    | nil =>
      rw [bfsAux_nil]
      exact hx
    | cons node rest =>
      by_cases h : node ∈ vis
      · rw [bfsAux_cons_visited g s fuel vis rest h]
        exact ih vis rest x hx
      · rw [bfsAux_cons_new g s fuel vis rest h]
        exact ih _ _ x (List.mem_cons_of_mem _ hx)

theorem bfsAux_out_spec (g : SortableDigraph V U W) (s : V) :
    ∀ (fuel : Nat) (vis q : List V),
      (bfsAux g s fuel vis q).1.Nodup ∧
      (∀ v ∈ (bfsAux g s fuel vis q).1,
        v ∉ vis ∧ v ≠ s ∧ v ∈ (bfsAux g s fuel vis q).2) ∧
      (∀ x ∈ (bfsAux g s fuel vis q).2, x ∈ vis ∨ x = s ∨ x ∈ (bfsAux g s fuel vis q).1) := by
  intro fuel
  induction fuel with
  | zero =>
    intro vis q
    rw [bfsAux_zero]
    refine ⟨List.nodup_nil, ?_, ?_⟩
    · intro v hv
      simp at hv
    · intro x hx
      exact Or.inl hx
  | succ fuel ih =>
    intro vis q
    cases q with
    | nil =>
      rw [bfsAux_nil]
      refine ⟨List.nodup_nil, ?_, ?_⟩
      · intro v hv
        simp at hv
      · intro x hx
        exact Or.inl hx
    | cons node rest =>
      by_cases h : node ∈ vis
      · rw [bfsAux_cons_visited g s fuel vis rest h]
        exact ih vis rest
      · rw [bfsAux_cons_new g s fuel vis rest h]
        obtain ⟨ihnd, ihout, ihfin⟩ :=
          ih (node :: vis) (rest ++ (getitem g node).filter (fun n => ¬ n ∈ node :: vis))
        have hnodefin : node ∈ (bfsAux g s fuel (node :: vis)
            (rest ++ (getitem g node).filter (fun n => ¬ n ∈ node :: vis))).2 :=
          bfsAux_visited_mono g s fuel _ _ node (List.mem_cons_self _ _)
        by_cases hns : node = s
        · simp only [if_pos hns]
          refine ⟨ihnd, ?_, ?_⟩
          · intro v hv
            obtain ⟨hv1, hv2, hv3⟩ := ihout v hv
            exact ⟨fun hc => hv1 (List.mem_cons_of_mem _ hc), hv2, hv3⟩
          · intro x hx
            rcases ihfin x hx with hx' | hx' | hx'
            · rcases List.mem_cons.mp hx' with rfl | hx''
              · exact Or.inr (Or.inl hns)
              · exact Or.inl hx''
            · exact Or.inr (Or.inl hx')
            · exact Or.inr (Or.inr hx')
        · simp only [if_neg hns]
          refine ⟨?_, ?_, ?_⟩
          · rw [List.nodup_cons]
            refine ⟨fun hc => ?_, ihnd⟩
            exact (ihout node hc).1 (List.mem_cons_self _ _)
          · intro v hv
            rcases List.mem_cons.mp hv with rfl | hv'
            · exact ⟨h, hns, hnodefin⟩
            · obtain ⟨hv1, hv2, hv3⟩ := ihout v hv'
              exact ⟨fun hc => hv1 (List.mem_cons_of_mem _ hc), hv2, hv3⟩
          · intro x hx
            rcases ihfin x hx with hx' | hx' | hx'
            · rcases List.mem_cons.mp hx' with rfl | hx''
              · exact Or.inr (Or.inr (List.mem_cons_self _ _))
              · exact Or.inl hx''
            · exact Or.inr (Or.inl hx')
            · exact Or.inr (Or.inr (List.mem_cons_of_mem _ hx'))

theorem bfsAux_sound (g : SortableDigraph V U W) (s : V) :
    ∀ (fuel : Nat) (vis q : List V),
      (∀ x ∈ q, Reach g s x) → (∀ x ∈ vis, Reach g s x) →
      ∀ v ∈ (bfsAux g s fuel vis q).2, Reach g s v := by
  intro fuel
  induction fuel with
  | zero =>
    intro vis q _ hvis v hv
    rw [bfsAux_zero] at hv
    exact hvis v hv
  | succ fuel ih =>
    intro vis q hq hvis
    cases q with
    | nil =>
      intro v hv
      rw [bfsAux_nil] at hv
      exact hvis v hv
    | cons node rest =>
      by_cases h : node ∈ vis
      · rw [bfsAux_cons_visited g s fuel vis rest h]
        exact ih vis rest (fun x hx => hq x (List.mem_cons_of_mem _ hx)) hvis
      · rw [bfsAux_cons_new g s fuel vis rest h]
        have hnode : Reach g s node := hq node (List.mem_cons_self _ _)
        refine ih _ _ ?_ ?_
        · intro x hx
          rcases List.mem_append.mp hx with hx' | hx'
          · exact hq x (List.mem_cons_of_mem _ hx')
          · have hx'' : x ∈ getitem g node := (List.mem_filter.mp hx').1
            exact Relation.ReflTransGen.tail hnode hx''
        · intro x hx
          rcases List.mem_cons.mp hx with rfl | hx'
          · exact hnode
          · exact hvis x hx'

theorem bfsAux_drain (g : SortableDigraph V U W) (s : V) :
    ∀ (fuel : Nat) (vis q : List V),
      (∀ x ∈ q, x ∈ touchable g s) →
      (∀ u ∈ vis, ∀ w ∈ getitem g u, w ∈ vis ∨ w ∈ q) →
      potential g s vis q ≤ fuel →
      (∀ x ∈ q, x ∈ (bfsAux g s fuel vis q).2) ∧
      (∀ u ∈ (bfsAux g s fuel vis q).2, ∀ w ∈ getitem g u,
        w ∈ (bfsAux g s fuel vis q).2) := by
  intro fuel
  induction fuel with
  | zero =>
    intro vis q _ hcl hfuel
    have hq : q = [] := by
      cases q with
      | nil => rfl
      | cons a l =>
        exfalso
        have : potential g s vis (a :: l) ≥ 1 := by
          rw [potential_pop]
          omega
        omega
    subst hq
    rw [bfsAux_zero]
    refine ⟨fun x hx => absurd hx (List.not_mem_nil x), fun u hu w hw => ?_⟩
    rcases hcl u hu w hw with h | h
    · exact h
    · exact absurd h (List.not_mem_nil w)
  | succ fuel ih =>
    intro vis q hsub hcl hfuel
    cases q with
    | nil =>
      rw [bfsAux_nil]
      refine ⟨fun x hx => absurd hx (List.not_mem_nil x), fun u hu w hw => ?_⟩
      rcases hcl u hu w hw with h | h
      · exact h
      · exact absurd h (List.not_mem_nil w)
    | cons node rest =>
      by_cases h : node ∈ vis
      · rw [bfsAux_cons_visited g s fuel vis rest h]
        have hfuel' : potential g s vis rest ≤ fuel := by
          rw [potential_pop] at hfuel
          omega
        have hcl' : ∀ u ∈ vis, ∀ w ∈ getitem g u, w ∈ vis ∨ w ∈ rest := by
          intro u hu w hw
          rcases hcl u hu w hw with h' | h'
          · exact Or.inl h'
          · rcases List.mem_cons.mp h' with rfl | h''
            · exact Or.inl h
            · exact Or.inr h''
        obtain ⟨hd1, hd2⟩ := ih vis rest
          (fun x hx => hsub x (List.mem_cons_of_mem _ hx)) hcl' hfuel'
        refine ⟨?_, hd2⟩
        intro x hx
        rcases List.mem_cons.mp hx with rfl | hx'
        · exact bfsAux_visited_mono g s fuel vis rest x h
        · exact hd1 x hx'
      · rw [bfsAux_cons_new g s fuel vis rest h]
        have hpush : ((getitem g node).filter (fun n => ¬ n ∈ node :: vis)).length ≤
            (getitem g node).length := List.length_filter_le _ _
        have hfuel' : potential g s (node :: vis)
            (rest ++ (getitem g node).filter (fun n => ¬ n ∈ node :: vis)) ≤ fuel := by
          have := potential_visit_rev g s (hsub node (List.mem_cons_self _ _)) h hpush rest
          omega
        have hsub' : ∀ x ∈ rest ++ (getitem g node).filter (fun n => ¬ n ∈ node :: vis),
            x ∈ touchable g s := by
          intro x hx
          rcases List.mem_append.mp hx with hx' | hx'
          · exact hsub x (List.mem_cons_of_mem _ hx')
          · exact mem_touchable_of_getitem (List.mem_filter.mp hx').1
        have hcl' : ∀ u ∈ node :: vis, ∀ w ∈ getitem g u,
            w ∈ node :: vis ∨
              w ∈ rest ++ (getitem g node).filter (fun n => ¬ n ∈ node :: vis) := by
          intro u hu w hw
          rcases List.mem_cons.mp hu with hune | hu'
          · rw [hune] at hw
            by_cases hwv : w ∈ node :: vis
            · exact Or.inl hwv
            · refine Or.inr (List.mem_append.mpr (Or.inr ?_))
              rw [List.mem_filter]
              exact ⟨hw, by simpa using hwv⟩
          · rcases hcl u hu' w hw with h' | h'
            · exact Or.inl (List.mem_cons_of_mem _ h')
            · rcases List.mem_cons.mp h' with rfl | h''
              · exact Or.inl (List.mem_cons_self _ _)
              · exact Or.inr (List.mem_append.mpr (Or.inl h''))
        obtain ⟨hd1, hd2⟩ := ih (node :: vis)
          (rest ++ (getitem g node).filter (fun n => ¬ n ∈ node :: vis)) hsub' hcl' hfuel'
        refine ⟨?_, hd2⟩
        intro x hx
        rcases List.mem_cons.mp hx with rfl | hx'
        · exact bfsAux_visited_mono g s fuel _ _ x (List.mem_cons_self _ _)
        · exact hd1 x (List.mem_append.mpr (Or.inl hx'))

/-! ### Top-level traversal correctness -/

theorem dfs_correct (g : SortableDigraph V U W) (s : V) :
    (dfs g s).Nodup ∧ s ∉ dfs g s ∧
      ∀ v, v ∈ dfs g s ↔ (Reach g s v ∧ v ≠ s) := by
  have hsub : ∀ x ∈ [s], x ∈ touchable g s := by
    intro x hx
    rw [List.mem_singleton] at hx
    rw [hx]
    exact start_mem_touchable g s
  have hcl : ∀ u ∈ ([] : List V), ∀ w ∈ getitem g u, w ∈ ([] : List V) ∨ w ∈ [s] := by
    intro u hu
    exact absurd hu (List.not_mem_nil u)
  have hfuel : potential g s [] [s] ≤ traverseFuel g s := le_refl _
  obtain ⟨hd1, hd2⟩ := dfsAux_drain g s (traverseFuel g s) [] [s] hsub hcl hfuel
  obtain ⟨hnd, hout, hfin⟩ := dfsAux_out_spec g s (traverseFuel g s) [] [s]
  have hsound := dfsAux_sound g s (traverseFuel g s) [] [s]
    (fun x hx => by
      rw [List.mem_singleton] at hx
      rw [hx]
      exact Relation.ReflTransGen.refl)
    (fun x hx => absurd hx (List.not_mem_nil x))
  have hsfin : s ∈ (dfsAux g s (traverseFuel g s) [] [s]).2 :=
    hd1 s (List.mem_singleton.mpr rfl)
  refine ⟨hnd, ?_, ?_⟩
  · intro hc
    exact (hout s hc).2.1 rfl
  · intro v
    constructor
    · intro hv
      obtain ⟨_, hne, hvfin⟩ := hout v hv
      exact ⟨hsound v hvfin, hne⟩
    · rintro ⟨hreach, hne⟩
      have hvfin : v ∈ (dfsAux g s (traverseFuel g s) [] [s]).2 :=
        reach_closed (fun u hu w hw => hd2 u hu w hw) hsfin hreach
      rcases hfin v hvfin with h | h | h
      · exact absurd h (List.not_mem_nil v)
      · exact absurd h hne
      · exact h

theorem bfs_correct (g : SortableDigraph V U W) (s : V) :
    (bfs g s).Nodup ∧ s ∉ bfs g s ∧
      ∀ v, v ∈ bfs g s ↔ (Reach g s v ∧ v ≠ s) := by
  have hsub : ∀ x ∈ [s], x ∈ touchable g s := by
    intro x hx
    rw [List.mem_singleton] at hx
    rw [hx]
    exact start_mem_touchable g s
  have hcl : ∀ u ∈ ([] : List V), ∀ w ∈ getitem g u, w ∈ ([] : List V) ∨ w ∈ [s] := by
    intro u hu
    exact absurd hu (List.not_mem_nil u)
  have hfuel : potential g s [] [s] ≤ traverseFuel g s := le_refl _
  obtain ⟨hd1, hd2⟩ := bfsAux_drain g s (traverseFuel g s) [] [s] hsub hcl hfuel
  obtain ⟨hnd, hout, hfin⟩ := bfsAux_out_spec g s (traverseFuel g s) [] [s]
  have hsound := bfsAux_sound g s (traverseFuel g s) [] [s]
    (fun x hx => by
      rw [List.mem_singleton] at hx
      rw [hx]
      exact Relation.ReflTransGen.refl)
    (fun x hx => absurd hx (List.not_mem_nil x))
  have hsfin : s ∈ (bfsAux g s (traverseFuel g s) [] [s]).2 :=
    hd1 s (List.mem_singleton.mpr rfl)
  refine ⟨hnd, ?_, ?_⟩
  · intro hc
    exact (hout s hc).2.1 rfl
  · intro v
    constructor
    · intro hv
      obtain ⟨_, hne, hvfin⟩ := hout v hv
      exact ⟨hsound v hvfin, hne⟩
    · rintro ⟨hreach, hne⟩
      have hvfin : v ∈ (bfsAux g s (traverseFuel g s) [] [s]).2 :=
        reach_closed (fun u hu w hw => hd2 u hu w hw) hsfin hreach
      rcases hfin v hvfin with h | h | h
      · exact absurd h (List.not_mem_nil v)
      · exact absurd h hne
      · exact h

theorem dfs_absent (g : SortableDigraph V U W) {s : V} (h : ¬ contains g s) :
    dfs g s = [] := by
  rw [List.eq_nil_iff_forall_not_mem]
  intro v hv
  obtain ⟨hreach, hne⟩ := ((dfs_correct g s).2.2 v).mp hv
  exact hne (reach_of_empty_start (getitem_of_not_contains h) hreach)

theorem bfs_absent (g : SortableDigraph V U W) {s : V} (h : ¬ contains g s) :
    bfs g s = [] := by
  rw [List.eq_nil_iff_forall_not_mem]
  intro v hv
  obtain ⟨hreach, hne⟩ := ((bfs_correct g s).2.2 v).mp hv
  exact hne (reach_of_empty_start (getitem_of_not_contains h) hreach)

/-! ### DAG lemmas -/

theorem has_path_iff (g : SortableDigraph V U W) (a t : V) :
    has_path g a t = true ↔ (Reach g a t ∧ t ≠ a) := by
  rw [has_path]
  by_cases hc : contains g a
  · rw [if_pos hc]
    by_cases hm : t ∈ bfs g a
    · rw [if_pos hm]
      simp only [true_iff]
      exact ((bfs_correct g a).2.2 t).mp hm
    · rw [if_neg hm]
      constructor
      · intro hcontra
        exact absurd hcontra Bool.false_ne_true
      · intro hcontra
        exact (hm (((bfs_correct g a).2.2 t).mpr hcontra)).elim
  · rw [if_neg hc]
    constructor
    · intro hcontra
      exact absurd hcontra Bool.false_ne_true
    · rintro ⟨hreach, hne⟩
      exact (hne (reach_of_empty_start (getitem_of_not_contains hc) hreach)).elim

theorem has_path_self (g : SortableDigraph V U W) (x : V) : has_path g x x = false := by
  rw [has_path]
  by_cases hc : contains g x
  · rw [if_pos hc, if_neg]
    exact (bfs_correct g x).2.1
  · rw [if_neg hc]

/-- Normal form of the DAG's `add_edge`: both endpoints are `add_node`ed, then
the reachability check decides between rejection and the base insertion. -/
theorem dag_add_edge_eq (g : SortableDigraph V U W) (a b : V) (w : Option W) :
    dag_add_edge g a b w =
      (let g2 : SortableDigraph V U W := add_node (add_node g a none) b none
       if has_path g2 b a then (g2, some (a, b))
       else (add_edge g2 a b w, none)) := by
  have h1 : (if contains g a then g else add_node g a none) = add_node g a none := by
    by_cases h : contains g a
    · rw [if_pos h, add_node_none_of_contains h]
    · rw [if_neg h]
  have h2 : (if contains (add_node g a none) b then add_node g a none
      else add_node (add_node g a none) b none) = add_node (add_node g a none) b none := by
    by_cases h : contains (add_node g a none) b
    · rw [if_pos h, add_node_none_of_contains h]
    · rw [if_neg h]
  show (let g1 := if contains g a then g else add_node g a none
        let g2 := if contains g1 b then g1 else add_node g1 b none
        if has_path g2 b a then (g2, some (a, b))
        else (add_edge g2 a b w, none)) = _
  simp only [h1, h2]

theorem reach_add_node2 {g : SortableDigraph V U W} {a b u v : V} :
    Reach (add_node (add_node g a none) b none) u v ↔ Reach g u v := by
  rw [reach_add_node, reach_add_node]

/-- Rejection behaviour of the DAG's `add_edge` on distinct endpoints:
it signals the cycle error exactly when a path from `b` back to `a` already
exists, and in that case the final state is the input state with just the two
endpoint nodes ensured (edge and weights untouched). -/
theorem dag_add_edge_reject (g : SortableDigraph V U W) (a b : V) (w : Option W)
    (hne : a ≠ b) :
    (((dag_add_edge g a b w).2 = some (a, b)) ↔ Reach g b a) ∧
    ((dag_add_edge g a b w).2 = some (a, b) →
      (dag_add_edge g a b w).1 = add_node (add_node g a none) b none) := by
  rw [dag_add_edge_eq]
  by_cases hp : has_path (add_node (add_node g a none) b none) b a
  · have hreach : Reach g b a := by
      have := (has_path_iff _ b a).mp hp
      exact reach_add_node2.mp this.1
    simp only [if_pos hp]
    exact ⟨⟨fun _ => hreach, fun _ => trivial⟩, fun _ => trivial⟩
  · have hnreach : ¬ Reach g b a := by
      intro hcontra
      exact hp ((has_path_iff _ b a).mpr ⟨reach_add_node2.mpr hcontra, hne⟩)
    simp only [if_neg hp]
    constructor
    · constructor
      · intro hcontra
        exact absurd hcontra (by simp)
      · intro hcontra
        exact absurd hcontra hnreach
    · intro hcontra
      exact absurd hcontra (by simp)

theorem getitem_nodup {g : SortableDigraph V U W}
    (h : ∀ p ∈ g.graph, (p.2 : List V).Nodup) (v : V) : (getitem g v).Nodup := by
  rw [getitem, dictGetD]
  cases hv : dictGet g.graph v with
  | none => simp
  | some l =>
    simp only [Option.getD_some]
    have hl : l ∈ g.graph.map Prod.snd := dictGet_mem_snd hv
    obtain ⟨p, hp, hpl⟩ := List.mem_map.mp hl
    exact hpl ▸ h p hp

theorem getitem_add_edge_self_mem (g : SortableDigraph V U W) (a b : V) (w : Option W) :
    b ∈ getitem (add_edge g a b w) a := by
  rw [getitem_add_edge, if_pos rfl]
  by_cases hm : b ∈ getitem g a
  · rw [if_pos hm]
    exact hm
  · rw [if_neg hm]
    exact List.mem_append.mpr (Or.inr (List.mem_singleton.mpr rfl))

theorem getitem_add_edge_self_nodup {g : SortableDigraph V U W}
    (h : ∀ p ∈ g.graph, (p.2 : List V).Nodup) (a b : V) (w : Option W) :
    (getitem (add_edge g a b w) a).Nodup := by
  rw [getitem_add_edge, if_pos rfl]
  by_cases hm : b ∈ getitem g a
  · rw [if_pos hm]
    exact getitem_nodup h a
  · rw [if_neg hm]
    rw [List.nodup_append]
    exact ⟨getitem_nodup h a, List.nodup_singleton b, by
      intro x hx
      rw [List.mem_singleton]
      intro hxb
      exact hm (hxb ▸ hx)⟩

theorem distIs_parent {g : SortableDigraph V U W} {s v : V} {k : Nat}
    (h : distIs g s v (k + 1)) :
    ∃ p, v ∈ getitem g p ∧ distIs g s p k := by
  obtain ⟨p, hp, hv⟩ := reachIn_unsnoc h.1
  refine ⟨p, hv, hp, ?_⟩
  intro j hj
  by_contra hlt
  push_neg at hlt
  have : reachIn g s (j + 1) v := reachIn_snoc hj hv
  have hk1 := h.2 (j + 1) this
  omega

/-! ### First-occurrence and effective-queue lemmas -/

theorem firstOcc_cons (a : V) (l : List V) :
    firstOcc (a :: l) = a :: firstOcc (l.filter (fun x => ¬ x = a)) := by
  rw [firstOcc]

theorem mem_firstOcc_aux :
    ∀ (n : Nat) (l : List V), l.length ≤ n → ∀ x, (x ∈ firstOcc l ↔ x ∈ l) := by
  intro n
  induction n with
  | zero =>
    intro l hl x
    have h0 : l = [] := List.eq_nil_of_length_eq_zero (Nat.le_zero.mp hl)
    subst h0
    rw [firstOcc]
  | succ n ih =>
    intro l hl x
    cases l with
    | nil => rw [firstOcc]
    | cons a l =>
      rw [firstOcc_cons]
      have hlen : (l.filter (fun x => ¬ x = a)).length ≤ n := by
        have h1 : l.length ≤ n := by
          rw [List.length_cons] at hl
          omega
        exact le_trans (List.length_filter_le _ _) h1
      rw [List.mem_cons, ih _ hlen x, List.mem_filter, List.mem_cons]
      by_cases hx : x = a
      · simp [hx]
      · simp [hx]

theorem mem_firstOcc (l : List V) (x : V) : x ∈ firstOcc l ↔ x ∈ l :=
  mem_firstOcc_aux l.length l (le_refl _) x

theorem firstOcc_append_aux :
    ∀ (n : Nat) (A : List V), A.length ≤ n → ∀ B : List V,
      firstOcc (A ++ B) = firstOcc A ++ firstOcc (B.filter (fun x => ¬ x ∈ A)) := by
  intro n
  induction n with
  | zero =>
    intro A hA B
    have h0 : A = [] := List.eq_nil_of_length_eq_zero (Nat.le_zero.mp hA)
    subst h0
    rw [List.nil_append, firstOcc, List.nil_append]
    congr 1
    symm
    rw [List.filter_eq_self]
    intro x _
    simp
  | succ n ih =>
    intro A hA B
    cases A with
    | nil =>
      rw [List.nil_append, firstOcc, List.nil_append]
      congr 1
      symm
      rw [List.filter_eq_self]
      intro x _
      simp
    | cons a A =>
      have hlen : (A.filter (fun x => ¬ x = a)).length ≤ n := by
        have h1 : A.length ≤ n := by
          rw [List.length_cons] at hA
          omega
        exact le_trans (List.length_filter_le _ _) h1
      rw [List.cons_append, firstOcc_cons, List.filter_append, ih _ hlen, firstOcc_cons,
        List.cons_append]
      congr 2
      rw [List.filter_filter]
      congr 1
      apply List.filter_congr
      intro x _
      by_cases hxa : x = a
      · simp [hxa]
      · by_cases hxA : x ∈ A
        · simp [hxa, hxA]
        · simp [hxa, hxA]

theorem firstOcc_append (A B : List V) :
    firstOcc (A ++ B) = firstOcc A ++ firstOcc (B.filter (fun x => ¬ x ∈ A)) :=
  firstOcc_append_aux A.length A (le_refl _) B

theorem mem_effQueue (vis q : List V) (x : V) :
    x ∈ effQueue vis q ↔ x ∈ q ∧ x ∉ vis := by
  rw [effQueue, mem_firstOcc, List.mem_filter]
  simp

theorem effQueue_cons_visited {vis : List V} {node : V} (h : node ∈ vis) (rest : List V) :
    effQueue vis (node :: rest) = effQueue vis rest := by
  rw [effQueue, effQueue, List.filter_cons]
  have h1 : (decide (¬ node ∈ vis)) = false := by simp [h]
  rw [h1, if_neg Bool.false_ne_true]

theorem effQueue_cons_new {vis : List V} {node : V} (h : node ∉ vis) (rest : List V) :
    effQueue vis (node :: rest) = node :: effQueue (node :: vis) rest := by
  rw [effQueue, List.filter_cons]
  have h1 : (decide (¬ node ∈ vis)) = true := by simp [h]
  rw [h1, if_pos rfl, firstOcc_cons]
  congr 1
  rw [effQueue, List.filter_filter]
  congr 1
  apply List.filter_congr
  intro x _
  by_cases hxn : x = node
  · simp [hxn]
  · by_cases hxv : x ∈ vis
    · simp [hxn, hxv]
    · simp [hxn, hxv]

/-! ### BFS layering invariant -/

theorem pairwise_of_forall_mem {α : Type} {R : α → α → Prop} :
    ∀ {l : List α}, (∀ a ∈ l, ∀ b ∈ l, R a b) → List.Pairwise R l := by
  intro l
  induction l with
  | nil => intro _; exact List.Pairwise.nil
  | cons a l ih =>
    intro h
    refine List.Pairwise.cons ?_ (ih ?_)
    · intro b hb
      exact h a (List.mem_cons_self _ _) b (List.mem_cons_of_mem _ hb)
    · intro x hx y hy
      exact h x (List.mem_cons_of_mem _ hx) y (List.mem_cons_of_mem _ hy)

theorem bfsInv_skip {g : SortableDigraph V U W} {s : V} {d : V → Nat}
    {vis rest : List V} {node : V} (h : node ∈ vis)
    (hinv : bfsInv g s d vis (node :: rest)) : bfsInv g s d vis rest := by
  obtain ⟨hq, hvis, hpair, hspread, hcl, hfront⟩ := hinv
  have hE := effQueue_cons_visited h rest
  refine ⟨fun x hx => hq x (List.mem_cons_of_mem _ hx), hvis, ?_, ?_, ?_, ?_⟩
  · rw [← hE]
    exact hpair
  · rw [← hE]
    exact hspread
  · intro u hu w hw
    rcases hcl u hu w hw with h' | h'
    · exact Or.inl h'
    · rcases List.mem_cons.mp h' with h'' | h''
      · exact Or.inl (by rw [h'']; exact h)
      · exact Or.inr h''
  · intro u hr hnv
    obtain ⟨e, he, hde⟩ := hfront u hr hnv
    rw [hE] at he
    exact ⟨e, he, hde⟩

theorem bfsInv_visit {g : SortableDigraph V U W} {s : V} {d : V → Nat}
    (hd : ∀ v, Reach g s v → distIs g s v (d v))
    {vis rest : List V} {node : V} (h : node ∉ vis)
    (push E1 N : List V)
    (hpushe : push = (getitem g node).filter (fun n => ¬ n ∈ node :: vis))
    (hE1e : E1 = effQueue (node :: vis) rest)
    (hNe : N = firstOcc (push.filter
      (fun x => ¬ x ∈ rest.filter (fun y => ¬ y ∈ node :: vis))))
    (hinv : bfsInv g s d vis (node :: rest)) :
    bfsInv g s d (node :: vis) (rest ++ push) ∧
    (∀ e ∈ effQueue (node :: vis) (rest ++ push), d node ≤ d e) := by
  obtain ⟨hq, hvis, hpair, hspread, hcl, hfront⟩ := hinv
  have hEcons : effQueue vis (node :: rest) = node :: E1 := by
    rw [hE1e]
    exact effQueue_cons_new h rest
  have hnode_reach : Reach g s node := hq node (List.mem_cons_self _ _)
  have hd_node := hd node hnode_reach
  -- ordering facts about the old effective queue
  rw [hEcons] at hpair hspread hfront
  have hpair' := List.pairwise_cons.mp hpair
  have hE1_lower : ∀ e ∈ E1, d node ≤ d e := hpair'.1
  have hE1_pair : List.Pairwise (fun a b => d a ≤ d b) E1 := hpair'.2
  have hE1_upper : ∀ e ∈ E1, d e ≤ d node + 1 := by
    intro e he
    exact hspread node (List.mem_cons_self _ _) e (List.mem_cons_of_mem _ he)
  -- no unvisited reachable node sits strictly below the current layer
  have case_lt : ∀ u, Reach g s u → u ∉ vis → d u < d node → False := by
    intro u hr hnv hlt
    obtain ⟨e, heE, hede⟩ := hfront u hr hnv
    rcases List.mem_cons.mp heE with he | he
    · rw [he] at hede
      omega
    · have := hE1_lower e he
      omega
  -- an unvisited reachable node on the current layer is already pending in `rest`
  have case_eq : ∀ u, Reach g s u → u ∉ node :: vis → d u = d node → u ∈ rest := by
    intro u hr hnv heq
    cases hdn : d node with
    | zero =>
      exfalso
      have h1 : s = u := by
        have hx := (hd u hr).1
        rw [heq, hdn] at hx
        exact hx
      have h2 : s = node := by
        have hx := hd_node.1
        rw [hdn] at hx
        exact hx
      exact hnv (by rw [← h1, h2]; exact List.mem_cons_self _ _)
    | succ k =>
      have hdu : distIs g s u (k + 1) := by
        have hx := hd u hr
        rw [heq, hdn] at hx
        exact hx
      obtain ⟨p, hpedge, hpdist⟩ := distIs_parent hdu
      have hp_reach : Reach g s p := reachIn_reach hpdist.1
      have hdp : d p = k := distIs_unique (hd p hp_reach) hpdist
      have hpvis : p ∈ vis := by
        by_contra hpnv
        rcases Nat.lt_or_ge (d p) (d node) with hlt | hge
        · exact case_lt p hp_reach hpnv hlt
        · omega
      rcases hcl p hpvis u hpedge with huv | huq
      · exact (hnv (List.mem_cons_of_mem _ huv)).elim
      · rcases List.mem_cons.mp huq with hun | hur
        · exact (hnv (by rw [hun]; exact List.mem_cons_self _ _)).elim
        · exact hur
  -- membership structure of the genuinely new queue entries
  have hN_mem : ∀ w ∈ N, w ∈ getitem g node ∧ w ∉ node :: vis ∧ w ∉ rest := by
    intro w hw
    rw [hNe, mem_firstOcc, List.mem_filter] at hw
    obtain ⟨hw1, hw2⟩ := hw
    rw [hpushe, List.mem_filter] at hw1
    have hwnv : w ∉ node :: vis := by simpa using hw1.2
    refine ⟨hw1.1, hwnv, ?_⟩
    intro hwrest
    have hmem : w ∈ rest.filter (fun y => ¬ y ∈ node :: vis) :=
      List.mem_filter.mpr ⟨hwrest, by simpa using hwnv⟩
    simp only [decide_eq_true_eq] at hw2
    exact hw2 hmem
  -- every genuinely new entry lies exactly one layer deeper
  have hN_dist : ∀ w ∈ N, d w = d node + 1 := by
    intro w hw
    obtain ⟨hedge, hwnv, hwnr⟩ := hN_mem w hw
    have hw_reach : Reach g s w := Relation.ReflTransGen.tail hnode_reach hedge
    have hd_w := hd w hw_reach
    have hupper : d w ≤ d node + 1 := distIs_succ_le hd_node hd_w hedge
    rcases lt_trichotomy (d w) (d node) with hlt | heq | hgt
    · exact (case_lt w hw_reach (fun hc => hwnv (List.mem_cons_of_mem _ hc)) hlt).elim
    · exact (hwnr (case_eq w hw_reach hwnv heq)).elim
    · omega
  -- decomposition of the new effective queue
  have hE'_eq : effQueue (node :: vis) (rest ++ push) = E1 ++ N := by
    rw [effQueue, List.filter_append]
    have hpp : push.filter (fun x => ¬ x ∈ node :: vis) = push := by
      rw [List.filter_eq_self]
      intro x hx
      rw [hpushe, List.mem_filter] at hx
      exact hx.2
    rw [hpp, firstOcc_append, hE1e, effQueue, hNe]
  have hE'_bounds : ∀ e ∈ effQueue (node :: vis) (rest ++ push),
      d node ≤ d e ∧ d e ≤ d node + 1 := by
    intro e he
    rw [hE'_eq] at he
    rcases List.mem_append.mp he with he' | he'
    · exact ⟨hE1_lower e he', hE1_upper e he'⟩
    · rw [hN_dist e he']
      omega
  -- closure for the new state
  have hcl' : ∀ u ∈ node :: vis, ∀ w ∈ getitem g u,
      w ∈ node :: vis ∨ w ∈ rest ++ push := by
    intro u hu w hw
    rcases List.mem_cons.mp hu with hune | hu'
    · rw [hune] at hw
      by_cases hwv : w ∈ node :: vis
      · exact Or.inl hwv
      · refine Or.inr (List.mem_append.mpr (Or.inr ?_))
        rw [hpushe]
        exact List.mem_filter.mpr ⟨hw, by simpa using hwv⟩
    · rcases hcl u hu' w hw with h' | h'
      · exact Or.inl (List.mem_cons_of_mem _ h')
      · rcases List.mem_cons.mp h' with h'' | h''
        · exact Or.inl (by rw [h'']; exact List.mem_cons_self _ _)
        · exact Or.inr (List.mem_append.mpr (Or.inl h''))
  -- front-completeness for the new state, by strong induction on the distance
  have key : ∀ n, ∀ u, d u ≤ n → Reach g s u → u ∉ node :: vis →
      ∃ e ∈ effQueue (node :: vis) (rest ++ push), d e ≤ d u := by
    intro n
    induction n with
    | zero =>
      intro u hdu hr hnv
      rcases lt_trichotomy (d u) (d node) with hlt | heq | hgt
      · exact (case_lt u hr (fun hc => hnv (List.mem_cons_of_mem _ hc)) hlt).elim
      · refine ⟨u, ?_, le_refl _⟩
        rw [mem_effQueue]
        exact ⟨List.mem_append.mpr (Or.inl (case_eq u hr hnv heq)), hnv⟩
      · omega
    | succ n ihn =>
      intro u hdu hr hnv
      rcases lt_trichotomy (d u) (d node) with hlt | heq | hgt
      · exact (case_lt u hr (fun hc => hnv (List.mem_cons_of_mem _ hc)) hlt).elim
      · refine ⟨u, ?_, le_refl _⟩
        rw [mem_effQueue]
        exact ⟨List.mem_append.mpr (Or.inl (case_eq u hr hnv heq)), hnv⟩
      · obtain ⟨k, hk⟩ : ∃ k, d u = k + 1 := ⟨d u - 1, by omega⟩
        have hdu' : distIs g s u (k + 1) := by
          have hx := hd u hr
          rw [hk] at hx
          exact hx
        obtain ⟨p, hpedge, hpdist⟩ := distIs_parent hdu'
        have hp_reach : Reach g s p := reachIn_reach hpdist.1
        have hdp : d p = k := distIs_unique (hd p hp_reach) hpdist
        by_cases hpv : p ∈ node :: vis
        · rcases hcl' p hpv u hpedge with hc | hc
          · exact (hnv hc).elim
          · refine ⟨u, ?_, le_refl _⟩
            rw [mem_effQueue]
            exact ⟨hc, hnv⟩
        · obtain ⟨e, heE, hede⟩ := ihn p (by omega) hp_reach hpv
          exact ⟨e, heE, by omega⟩
  refine ⟨⟨?_, ?_, ?_, ?_, hcl', ?_⟩, fun e he => (hE'_bounds e he).1⟩
  · intro x hx
    rcases List.mem_append.mp hx with hx' | hx'
    · exact hq x (List.mem_cons_of_mem _ hx')
    · rw [hpushe, List.mem_filter] at hx'
      exact Relation.ReflTransGen.tail hnode_reach hx'.1
  · intro x hx
    rcases List.mem_cons.mp hx with hx' | hx'
    · rw [hx']
      exact hnode_reach
    · exact hvis x hx'
  · rw [hE'_eq]
    rw [List.pairwise_append]
    refine ⟨hE1_pair, ?_, ?_⟩
    · apply pairwise_of_forall_mem
      intro a ha b hb
      rw [hN_dist a ha, hN_dist b hb]
    · intro a ha b hb
      have h1 := hE1_upper a ha
      have h2 := hN_dist b hb
      omega
  · intro a ha b hb
    have h1 := hE'_bounds a ha
    have h2 := hE'_bounds b hb
    omega
  · intro u hr hnv
    exact key (d u) u (le_refl _) hr hnv

theorem bfsAux_pairwise {g : SortableDigraph V U W} {s : V} {d : V → Nat}
    (hd : ∀ v, Reach g s v → distIs g s v (d v)) :
    ∀ (fuel : Nat) (vis q : List V), bfsInv g s d vis q →
      List.Pairwise (fun a b => d a ≤ d b) (bfsAux g s fuel vis q).1 ∧
      (∀ o ∈ (bfsAux g s fuel vis q).1, ∃ e ∈ effQueue vis q, d e ≤ d o) := by
  intro fuel
  induction fuel with
  | zero =>
    intro vis q _
    rw [bfsAux_zero]
    exact ⟨List.Pairwise.nil, by simp⟩
  | succ fuel ih =>
    intro vis q hinv
    cases q with
    | nil =>
      rw [bfsAux_nil]
      exact ⟨List.Pairwise.nil, by simp⟩
    | cons node rest =>
      by_cases h : node ∈ vis
      · rw [bfsAux_cons_visited g s fuel vis rest h]
        obtain ⟨hp, hm⟩ := ih vis rest (bfsInv_skip h hinv)
        refine ⟨hp, ?_⟩
        intro o ho
        obtain ⟨e, he, hde⟩ := hm o ho
        rw [effQueue_cons_visited h rest]
        exact ⟨e, he, hde⟩
      · rw [bfsAux_cons_new g s fuel vis rest h]
        obtain ⟨hinv', hge⟩ := bfsInv_visit hd h _ _ _ rfl rfl rfl hinv
        obtain ⟨hp, hm⟩ := ih _ _ hinv'
        have hout_ge : ∀ o ∈ (bfsAux g s fuel (node :: vis)
            (rest ++ (getitem g node).filter (fun n => ¬ n ∈ node :: vis))).1,
            d node ≤ d o := by
          intro o ho
          obtain ⟨e, he, hde⟩ := hm o ho
          exact le_trans (hge e he) hde
        have hnodeE : node ∈ effQueue vis (node :: rest) := by
          rw [effQueue_cons_new h rest]
          exact List.mem_cons_self _ _
        by_cases hns : node = s
        · simp only [if_pos hns]
          refine ⟨hp, ?_⟩
          intro o ho
          exact ⟨node, hnodeE, hout_ge o ho⟩
        · simp only [if_neg hns]
          refine ⟨List.Pairwise.cons hout_ge hp, ?_⟩
          intro o ho
          rcases List.mem_cons.mp ho with ho' | ho'
          · exact ⟨node, hnodeE, by rw [ho']⟩
          · exact ⟨node, hnodeE, hout_ge o ho'⟩

theorem bfs_pairwise (g : SortableDigraph V U W) (s : V) {d : V → Nat}
    (hd : ∀ v, Reach g s v → distIs g s v (d v)) :
    List.Pairwise (fun a b => d a ≤ d b) (bfs g s) := by
  have hds : d s = 0 :=
    distIs_unique (hd s Relation.ReflTransGen.refl) (distIs_self g s)
  have he : effQueue ([] : List V) [s] = [s] := by
    simp [effQueue, firstOcc]
  have hinv : bfsInv g s d [] [s] := by
    refine ⟨?_, ?_, ?_, ?_, ?_, ?_⟩
    · intro x hx
      rw [List.mem_singleton] at hx
      rw [hx]
      exact Relation.ReflTransGen.refl
    · intro x hx
      exact absurd hx (List.not_mem_nil x)
    · rw [he]
      exact List.pairwise_singleton _ _
    · rw [he]
      intro a ha b hb
      rw [List.mem_singleton] at ha hb
      rw [ha, hb]
      omega
    · intro u hu
      exact absurd hu (List.not_mem_nil u)
    · intro u hr hnv
      refine ⟨s, ?_, ?_⟩
      · rw [he]
        exact List.mem_singleton.mpr rfl
      · rw [hds]
        exact Nat.zero_le _
  exact (bfsAux_pairwise hd (traverseFuel g s) [] [s] hinv).1

/-! ### Claim theorems -/

/-- C1: the spec claims the DAG's edge set is acyclic after every successful
insertion.  The code violates this: `add_edge(0, 0)` on a fresh DAG succeeds
(no error is signalled) and leaves a one-edge cycle `0 → 0` in the edge set,
because `_has_path(0, 0)` is `False` (BFS never re-yields its start node). -/
theorem C1_dag_selfloop_cycle :
    (dag_add_edge (emptyGraph Nat Nat Nat) 0 0 none).2 = none ∧
    reachIn (dag_add_edge (emptyGraph Nat Nat Nat) 0 0 none).1 0 1 0 := by
  constructor
  · decide
  · exact ⟨0, by decide, rfl⟩

/-- C2: for distinct `a`, `b`, the DAG's `add_edge(a, b, w)` raises the
cycle-validation error carrying the pair `(a, b)` iff a path from `b` to `a`
already exists; on rejection the adjacency structure and the edge weights are
those of the input state, while both endpoint nodes are present (auto-inserted
nodes are not rolled back). -/
theorem C2_dag_reject_iff_path {V U W : Type} [DecidableEq V]
    (g : SortableDigraph V U W) (a b : V) (w : Option W) (hne : a ≠ b) :
    (((dag_add_edge g a b w).2 = some (a, b)) ↔ Reach g b a) ∧
    ((dag_add_edge g a b w).2 = some (a, b) →
      (∀ x, getitem (dag_add_edge g a b w).1 x = getitem g x) ∧
      (dag_add_edge g a b w).1.edge_weights = g.edge_weights ∧
      contains (dag_add_edge g a b w).1 a ∧ contains (dag_add_edge g a b w).1 b) := by
  obtain ⟨hiff, hstate⟩ := dag_add_edge_reject g a b w hne
  refine ⟨hiff, fun herr => ?_⟩
  have hs := hstate herr
  rw [hs]
  refine ⟨?_, ?_, ?_, ?_⟩
  · intro x
    rw [getitem_add_node, getitem_add_node]
  · rw [edge_weights_add_node, edge_weights_add_node]
  · rw [contains_add_node, contains_add_node]
    tauto
  · rw [contains_add_node]
    tauto

/-- Witness for C2 at a concrete input: with the single edge `0 → 1`,
`add_edge(1, 0)` is rejected with the pair `(1, 0)` and leaves the state
unchanged apart from the ensured endpoint nodes. -/
theorem C2_dag_reject_iff_path_witness :
    ((1 : Nat) ≠ 0) ∧
    ((((dag_add_edge (add_edge (emptyGraph Nat Nat Nat) 0 1 none) 1 0 (some 5)).2 =
        some (1, 0)) ↔ Reach (add_edge (emptyGraph Nat Nat Nat) 0 1 none) 0 1) ∧
    ((dag_add_edge (add_edge (emptyGraph Nat Nat Nat) 0 1 none) 1 0 (some 5)).2 =
        some (1, 0) →
      (∀ x, getitem (dag_add_edge (add_edge (emptyGraph Nat Nat Nat) 0 1 none)
          1 0 (some 5)).1 x = getitem (add_edge (emptyGraph Nat Nat Nat) 0 1 none) x) ∧
      (dag_add_edge (add_edge (emptyGraph Nat Nat Nat) 0 1 none)
          1 0 (some 5)).1.edge_weights =
        (add_edge (emptyGraph Nat Nat Nat) 0 1 none).edge_weights ∧
      contains (dag_add_edge (add_edge (emptyGraph Nat Nat Nat) 0 1 none)
          1 0 (some 5)).1 1 ∧
      contains (dag_add_edge (add_edge (emptyGraph Nat Nat Nat) 0 1 none)
          1 0 (some 5)).1 0)) :=
  ⟨by decide, C2_dag_reject_iff_path (add_edge (emptyGraph Nat Nat Nat) 0 1 none)
    1 0 (some 5) (by decide)⟩

/-- C3: the spec claims `add_edge(x, x)` is always rejected with the
cycle-validation error and the self-loop never added.  The code does the
opposite: on a fresh DAG, `add_edge(0, 0)` signals no error and `0` ends up in
its own successor list. -/
theorem C3_dag_selfloop_not_rejected :
    (dag_add_edge (emptyGraph Nat Nat Nat) 0 0 none).2 = none ∧
    0 ∈ getitem (dag_add_edge (emptyGraph Nat Nat Nat) 0 0 none).1 0 := by
  decide

/-- C4: the spec claims `top_sort()` returns every node exactly once for every
DAG reachable through the DAG's own API.  The state reached by the successful
call `add_edge(0, 0)` on a fresh DAG contains node `0`, yet `top_sort()`
returns the empty sequence, omitting it (its self-loop keeps its in-degree
positive forever). -/
theorem C4_top_sort_omits_selfloop_node :
    (dag_add_edge (emptyGraph Nat Nat Nat) 0 0 none).2 = none ∧
    contains (dag_add_edge (emptyGraph Nat Nat Nat) 0 0 none).1 0 ∧
    top_sort (dag_add_edge (emptyGraph Nat Nat Nat) 0 0 none).1 = [] := by
  decide

/-- C5: for every graph and start node, neither traversal ever yields `start`;
each yields exactly the nodes reachable from `start` (excluding `start`),
without duplicates; and an absent start yields nothing (no error can be
raised: both traversals are total functions). -/
theorem C5_traversal_output_characterization {V U W : Type} [DecidableEq V]
    (g : SortableDigraph V U W) (s : V) :
    s ∉ dfs g s ∧ s ∉ bfs g s ∧ (dfs g s).Nodup ∧ (bfs g s).Nodup ∧
    (∀ v, v ∈ dfs g s ↔ (Reach g s v ∧ v ≠ s)) ∧
    (∀ v, v ∈ bfs g s ↔ (Reach g s v ∧ v ≠ s)) ∧
    (¬ contains g s → dfs g s = [] ∧ bfs g s = []) := by
  obtain ⟨hdnd, hds, hdm⟩ := dfs_correct g s
  obtain ⟨hbnd, hbs, hbm⟩ := bfs_correct g s
  exact ⟨hds, hbs, hdnd, hbnd, hdm, hbm,
    fun h => ⟨dfs_absent g h, bfs_absent g h⟩⟩

/-- Witness for C5 at a concrete input: on the empty graph with start `5`
(absent), both traversals yield nothing. -/
theorem C5_traversal_output_characterization_witness :
    (¬ contains (emptyGraph Nat Nat Nat) 5) ∧
    dfs (emptyGraph Nat Nat Nat) 5 = [] ∧ bfs (emptyGraph Nat Nat Nat) 5 = [] := by
  have h : ¬ contains (emptyGraph Nat Nat Nat) 5 := by decide
  exact ⟨h, (C5_traversal_output_characterization (emptyGraph Nat Nat Nat) 5).2.2.2.2.2.2 h⟩

/-- C6: the sequence yielded by the breadth-first traversal is ordered by
non-decreasing shortest-path distance from `start`: whenever `a` is yielded
before `b`, every upper bound on the shortest edge-chain length from `start`
to `b` also bounds one to `a`.  (Ties are broken by enqueue order by
construction: the yield order is exactly the FIFO dequeue order.) -/
theorem C6_bfs_nondecreasing_distance {V U W : Type} [DecidableEq V]
    (g : SortableDigraph V U W) (s : V) :
    List.Pairwise (fun a b => ∀ k, distLe g s b k → distLe g s a k) (bfs g s) := by
  classical
  have hd : ∀ v, Reach g s v → distIs g s v (sInf { j | reachIn g s j v }) := by
    intro v hv
    obtain ⟨k, hk⟩ := reach_iff_reachIn.mp hv
    have hne : { j | reachIn g s j v }.Nonempty := ⟨k, hk⟩
    exact ⟨Nat.sInf_mem hne, fun j hj => Nat.sInf_le hj⟩
  have hp := bfs_pairwise g s hd
  have hreach : ∀ o ∈ bfs g s, Reach g s o :=
    fun o ho => (((bfs_correct g s).2.2 o).mp ho).1
  refine List.Pairwise.imp_of_mem ?_ hp
  intro a b ha hb hab k hbk
  obtain ⟨j, hjk, hj⟩ := hbk
  have hda := hd a (hreach a ha)
  have hdb := hd b (hreach b hb)
  have h1 : sInf { j | reachIn g s j b } ≤ j := hdb.2 j hj
  exact ⟨sInf { j | reachIn g s j a }, by omega, hda.1⟩

/-- C7: on the graph built by `add_edge` calls A→B, A→C, B→D (A,B,C,D encoded
as 0,1,2,3), depth-first traversal from A yields exactly [B, D, C] and
breadth-first traversal yields exactly [B, C, D]. -/
theorem C7_concrete_example_traversals :
    dfs (add_edge (add_edge (add_edge (emptyGraph Nat Nat Nat) 0 1 none)
      0 2 none) 1 3 none) 0 = [1, 3, 2] ∧
    bfs (add_edge (add_edge (add_edge (emptyGraph Nat Nat Nat) 0 1 none)
      0 2 none) 1 3 none) 0 = [1, 2, 3] := by
  decide

/-- C8: after `add_edge(a, b)` on a store whose successor lists hold no
duplicates, both endpoints are present and `b` occurs exactly once in `a`'s
successor list — also after calling `add_edge(a, b)` a second time (the
second call is a no-op on adjacency). -/
theorem C8_add_edge_idempotent_once {V U W : Type} [DecidableEq V]
    (g : SortableDigraph V U W) (a b : V) (w w' : Option W)
    (hnd : ∀ p ∈ g.graph, (p.2 : List V).Nodup) :
    contains (add_edge g a b w) a ∧ contains (add_edge g a b w) b ∧
    (getitem (add_edge g a b w) a).count b = 1 ∧
    (getitem (add_edge (add_edge g a b w) a b w') a).count b = 1 := by
  have h1 := getitem_add_edge_self_mem g a b w
  have h2 := getitem_add_edge_self_nodup hnd a b w
  refine ⟨(contains_add_edge g a b w a).mpr (Or.inl rfl),
    (contains_add_edge g a b w b).mpr (Or.inr (Or.inl rfl)),
    List.count_eq_one_of_mem h2 h1, ?_⟩
  rw [getitem_add_edge, if_pos rfl, if_pos h1]
  exact List.count_eq_one_of_mem h2 h1

/-- Witness for C8 at a concrete input: adding edge `0 → 1` (twice) to the
empty graph. -/
theorem C8_add_edge_idempotent_once_witness :
    contains (add_edge (emptyGraph Nat Nat Nat) 0 1 none) 0 ∧
    contains (add_edge (emptyGraph Nat Nat Nat) 0 1 none) 1 ∧
    (getitem (add_edge (emptyGraph Nat Nat Nat) 0 1 none) 0).count 1 = 1 ∧
    (getitem (add_edge (add_edge (emptyGraph Nat Nat Nat) 0 1 none) 0 1 none) 0).count 1
      = 1 :=
  C8_add_edge_idempotent_once (emptyGraph Nat Nat Nat) 0 1 none none
    (by intro p hp; exact absurd hp (by simp [emptyGraph]))

/-- C9: lookups never fail on absent inputs: the successor lookup of an absent
node is the empty sequence, and the weight lookup of an unset ordered pair is
`none`. -/
theorem C9_absent_lookups_degrade {V U W : Type} [DecidableEq V]
    (g : SortableDigraph V U W) (n a b : V)
    (hn : ¬ contains g n) (hw : (a, b) ∉ g.edge_weights.map Prod.fst) :
    getitem g n = [] ∧ get_edge_weight g a b = none :=
  ⟨getitem_of_not_contains hn, dictGet_of_not_mem hw⟩

/-- Witness for C9 at a concrete input: the empty graph. -/
theorem C9_absent_lookups_degrade_witness :
    (¬ contains (emptyGraph Nat Nat Nat) 0) ∧
    ((0, 1) ∉ (emptyGraph Nat Nat Nat).edge_weights.map Prod.fst) ∧
    getitem (emptyGraph Nat Nat Nat) 0 = [] ∧
    get_edge_weight (emptyGraph Nat Nat Nat) 0 1 = none :=
  ⟨by decide, by simp [emptyGraph], C9_absent_lookups_degrade (emptyGraph Nat Nat Nat) 0 0 1
    (by decide) (by simp [emptyGraph])⟩

/-- C10: for every graph state and node `x`, the DAG's reachability helper
`_has_path(x, x)` returns `False` — even when a cycle through `x` exists —
because the BFS it consults never re-yields its start node. -/
theorem C10_has_path_self_false {V U W : Type} [DecidableEq V]
    (g : SortableDigraph V U W) (x : V) : has_path g x x = false :=
  has_path_self g x

end StudentCode
